import Mathlib

/-!
# Verification of the SML notebooks

A shallow embedding, in Lean 4, of the two notebooks of the `SML`
repository (`keras_introduction.ipynb` and `lstm_seq2seq.ipynb`), together
with proofs of the properties stated about them.

Floating-point values are modelled as rationals.  Calls into the Keras
framework (`encoder_model.predict`, `decoder_model.predict`, the metric
values seen by the `EarlyStopping` callback, the value of `np.std`) are
modelled as parameters, since the framework is not part of the repository;
everything the notebooks themselves compute is embedded directly.
-/

namespace SML

/-! ## `np.argmax`

`np.argmax` over a one-dimensional array returns the index of the first
occurrence of the maximal element.  On the empty list we return `0`
(NumPy raises there; the notebook never calls it on an empty array). -/

def npArgmax : List ℚ → Nat
  | [] => 0
  | x :: xs =>
    match xs with
    | [] => 0
    | _ :: _ => if xs.getD (npArgmax xs) 0 ≤ x then 0 else npArgmax xs + 1

theorem npArgmax_lt_length (l : List ℚ) (h : l ≠ []) : npArgmax l < l.length := by
  induction l with
  | nil => simp at h
  | cons x xs ih =>
    cases xs with
    | nil => simp [npArgmax]
    | cons y ys =>
      rw [npArgmax]
      split
      · simp
      · have := ih (by simp)
        simpa [Nat.succ_lt_succ_iff] using this

theorem npArgmax_is_max (l : List ℚ) (j : Nat) (hj : j < l.length) :
    l.getD j 0 ≤ l.getD (npArgmax l) 0 := by
  induction l generalizing j with
  | nil => simp at hj
  | cons x xs ih =>
    cases xs with
    | nil =>
      have hj0 : j = 0 := by simpa using Nat.lt_one_iff.mp (by simpa using hj)
      subst hj0
      simp [npArgmax]
    | cons y ys =>
      rw [npArgmax]
      by_cases hc : (y :: ys).getD (npArgmax (y :: ys)) 0 ≤ x
      · rw [if_pos hc]
        cases j with
        | zero => simp
        | succ k =>
          have hk : k < (y :: ys).length := by simpa using hj
          have := ih k hk
          simpa using this.trans hc
      · rw [if_neg hc]
        push_neg at hc
        cases j with
        | zero => simpa using hc.le
        | succ k =>
          have hk : k < (y :: ys).length := by simpa using hj
          simpa using ih k hk

theorem npArgmax_first (l : List ℚ) (j : Nat) (hj : j < npArgmax l) :
    l.getD j 0 < l.getD (npArgmax l) 0 := by
  induction l generalizing j with
  | nil => simp [npArgmax] at hj
  | cons x xs ih =>
    cases xs with
    | nil => simp [npArgmax] at hj
    | cons y ys =>
      rw [npArgmax] at hj ⊢
      by_cases hc : (y :: ys).getD (npArgmax (y :: ys)) 0 ≤ x
      · rw [if_pos hc] at hj
        omega
      · rw [if_neg hc] at hj ⊢
        push_neg at hc
        cases j with
        | zero => simpa using hc
        | succ k =>
          have hk : k < npArgmax (y :: ys) := by omega
          simpa using ih k hk

/-! ## One-hot vectors

`np.zeros((1, 1, n))` followed by `target_seq[0, 0, idx] = 1.0` produces a
one-hot row of width `n`. -/

def oneHot (n idx : Nat) : List ℚ :=
  (List.range n).map (fun j => if j = idx then 1 else 0)

/-! ## The inference sampling loop of `lstm_seq2seq.ipynb`

`decode_sequence` first calls `encoder_model.predict` to obtain the two
state vectors `[h, c]`, then repeatedly calls `decoder_model.predict` on a
one-token one-hot target sequence and the current states, samples the next
character with `np.argmax` on the prediction at the last timestep, appends
it to the decoded sentence, and stops on the sentinel `"\n"` or once the
sentence is strictly longer than `max_decoder_seq_length`.

The decoder model is a parameter `predict : List ℚ → σ → List (List ℚ) × σ`
taking the one-hot target sequence (one row per timestep; here always a
single row) and the states, and returning the per-timestep prediction rows
together with the new states `(h, c)`.  `decodeLoop` is the `while` loop
with `decoded` the sentence accumulated so far. -/

def decodeLoop {σ : Type} (predict : List ℚ → σ → List (List ℚ) × σ)
    (reverse_index : Nat → Char) (num_decoder_tokens max_decoder_seq_length : Nat)
    (target_seq : List ℚ) (st : σ) (decoded : List Char) : List Char :=
  let out := predict target_seq st
  let sampled_token_index := npArgmax (out.1.getLastD [])
  let sampled_char := reverse_index sampled_token_index
  let decoded2 := decoded ++ [sampled_char]
  if sampled_char = Char.ofNat 10 ∨ max_decoder_seq_length < decoded2.length then
    decoded2
  else
    decodeLoop predict reverse_index num_decoder_tokens max_decoder_seq_length
      (oneHot num_decoder_tokens sampled_token_index) out.2 decoded2
termination_by max_decoder_seq_length + 1 - decoded.length
decreasing_by
  simp only [decoded2, List.length_append, List.length_cons, List.length_nil, not_or,
    not_lt] at *
  omega

/-- The per-iteration trace of the sampling loop: for each iteration in
order, the one-hot target sequence fed to `decoder_model.predict`, the
prediction rows it returned, and the sampled token index. -/
def decodeSteps {σ : Type} (predict : List ℚ → σ → List (List ℚ) × σ)
    (reverse_index : Nat → Char) (num_decoder_tokens max_decoder_seq_length : Nat)
    (target_seq : List ℚ) (st : σ) (decoded : List Char) :
    List (List ℚ × List (List ℚ) × Nat) :=
  let out := predict target_seq st
  let sampled_token_index := npArgmax (out.1.getLastD [])
  let sampled_char := reverse_index sampled_token_index
  let decoded2 := decoded ++ [sampled_char]
  if sampled_char = Char.ofNat 10 ∨ max_decoder_seq_length < decoded2.length then
    [(target_seq, out.1, sampled_token_index)]
  else
    (target_seq, out.1, sampled_token_index) ::
      decodeSteps predict reverse_index num_decoder_tokens max_decoder_seq_length
        (oneHot num_decoder_tokens sampled_token_index) out.2 decoded2
termination_by max_decoder_seq_length + 1 - decoded.length
decreasing_by
  simp only [decoded2, List.length_append, List.length_cons, List.length_nil, not_or,
    not_lt] at *
  omega

/-- `decode_sequence` of `lstm_seq2seq.ipynb`.  The encoder model is the
parameter `encoder_predict`, mapping the input sequence to the two state
vectors `(h, c)`; the states type is `List ℚ × List ℚ`.  `start_index`
is `target_token_index["\t"]`, so the first one-hot target sequence holds
the start-of-sequence character. -/
def decode_sequence (encoder_predict : List (List ℚ) → List ℚ × List ℚ)
    (decoder_predict : List ℚ → List ℚ × List ℚ → List (List ℚ) × (List ℚ × List ℚ))
    (reverse_index : Nat → Char) (num_decoder_tokens max_decoder_seq_length : Nat)
    (start_index : Nat) (input_seq : List (List ℚ)) : List Char :=
  decodeLoop decoder_predict reverse_index num_decoder_tokens max_decoder_seq_length
    (oneHot num_decoder_tokens start_index) (encoder_predict input_seq) []

/-- Unfolding equation for `decodeLoop` (the `let`s of the definition
expanded). -/
theorem decodeLoop_eq {σ : Type} (predict : List ℚ → σ → List (List ℚ) × σ)
    (rev : Nat → Char) (n m : Nat) (tseq : List ℚ) (st : σ) (decoded : List Char) :
    decodeLoop predict rev n m tseq st decoded =
      if rev (npArgmax ((predict tseq st).1.getLastD [])) = Char.ofNat 10 ∨
          m < (decoded ++ [rev (npArgmax ((predict tseq st).1.getLastD []))]).length then
        decoded ++ [rev (npArgmax ((predict tseq st).1.getLastD []))]
      else
        decodeLoop predict rev n m
          (oneHot n (npArgmax ((predict tseq st).1.getLastD [])))
          (predict tseq st).2
          (decoded ++ [rev (npArgmax ((predict tseq st).1.getLastD []))]) := by
  rw [decodeLoop.eq_def]

/-- Unfolding equation for `decodeSteps`. -/
theorem decodeSteps_eq {σ : Type} (predict : List ℚ → σ → List (List ℚ) × σ)
    (rev : Nat → Char) (n m : Nat) (tseq : List ℚ) (st : σ) (decoded : List Char) :
    decodeSteps predict rev n m tseq st decoded =
      if rev (npArgmax ((predict tseq st).1.getLastD [])) = Char.ofNat 10 ∨
          m < (decoded ++ [rev (npArgmax ((predict tseq st).1.getLastD []))]).length then
        [(tseq, (predict tseq st).1, npArgmax ((predict tseq st).1.getLastD []))]
      else
        (tseq, (predict tseq st).1, npArgmax ((predict tseq st).1.getLastD [])) ::
          decodeSteps predict rev n m
            (oneHot n (npArgmax ((predict tseq st).1.getLastD [])))
            (predict tseq st).2
            (decoded ++ [rev (npArgmax ((predict tseq st).1.getLastD []))]) := by
  rw [decodeSteps.eq_def]

/-- A clean induction principle for the sampling loop (the `let`s of the
definition expanded). -/
theorem decodeSteps_induction {σ : Type} (predict : List ℚ → σ → List (List ℚ) × σ)
    (rev : Nat → Char) (n m : Nat) (motive : List ℚ → σ → List Char → Prop)
    (stop : ∀ tseq st decoded,
      (rev (npArgmax ((predict tseq st).1.getLastD [])) = Char.ofNat 10 ∨
        m < (decoded ++ [rev (npArgmax ((predict tseq st).1.getLastD []))]).length) →
      motive tseq st decoded)
    (cont : ∀ tseq st decoded,
      ¬(rev (npArgmax ((predict tseq st).1.getLastD [])) = Char.ofNat 10 ∨
        m < (decoded ++ [rev (npArgmax ((predict tseq st).1.getLastD []))]).length) →
      motive (oneHot n (npArgmax ((predict tseq st).1.getLastD []))) (predict tseq st).2
        (decoded ++ [rev (npArgmax ((predict tseq st).1.getLastD []))]) →
      motive tseq st decoded) :
    ∀ tseq st decoded, motive tseq st decoded := by
  intro tseq st decoded
  induction tseq, st, decoded using decodeSteps.induct predict rev n m with
  | case1 a b c o si sc d2 h => exact stop a b c h
  | case2 a b c o si sc d2 h ih => exact cont a b c h ih

theorem decodeLoop_eq_append_map {σ : Type} (predict : List ℚ → σ → List (List ℚ) × σ)
    (rev : Nat → Char) (n m : Nat) (tseq : List ℚ) (st : σ) (decoded : List Char) :
    decodeLoop predict rev n m tseq st decoded =
      decoded ++ (decodeSteps predict rev n m tseq st decoded).map
        (fun e => rev e.2.2) := by
  induction tseq, st, decoded using decodeSteps_induction predict rev n m with
  | stop tseq st decoded h =>
    rw [decodeLoop_eq, decodeSteps_eq, if_pos h, if_pos h]
    simp
  | cont tseq st decoded h ih =>
    rw [decodeLoop_eq, decodeSteps_eq, if_neg h, if_neg h]
    simp only [List.map_cons]
    rw [ih]
    simp

theorem decodeSteps_length_le {σ : Type} (predict : List ℚ → σ → List (List ℚ) × σ)
    (rev : Nat → Char) (n m : Nat) (tseq : List ℚ) (st : σ) (decoded : List Char)
    (hd : decoded.length ≤ m) :
    (decodeSteps predict rev n m tseq st decoded).length ≤ m + 1 - decoded.length := by
  induction tseq, st, decoded using decodeSteps_induction predict rev n m with
  | stop tseq st decoded h =>
    rw [decodeSteps_eq, if_pos h]
    simp only [List.length_cons, List.length_nil]
    omega
  | cont tseq st decoded h ih =>
    rw [decodeSteps_eq, if_neg h]
    simp only [not_or, not_lt, List.length_append, List.length_cons, List.length_nil] at h
    have := ih (by
      simp only [List.length_append, List.length_cons, List.length_nil]
      omega)
    simp only [List.length_cons, List.length_append, List.length_nil] at *
    omega

theorem decodeSteps_sampled_char {σ : Type} (predict : List ℚ → σ → List (List ℚ) × σ)
    (rev : Nat → Char) (n m : Nat) (tseq : List ℚ) (st : σ) (decoded : List Char) :
    ∀ e ∈ decodeSteps predict rev n m tseq st decoded,
      e.2.2 = npArgmax (e.2.1.getLastD []) := by
  induction tseq, st, decoded using decodeSteps_induction predict rev n m with
  | stop tseq st decoded h =>
    rw [decodeSteps_eq, if_pos h]
    simp
  | cont tseq st decoded h ih =>
    rw [decodeSteps_eq, if_neg h]
    intro e he
    rcases List.mem_cons.mp he with he | he
    · subst he; simp
    · exact ih e he

theorem decodeSteps_ne_nil {σ : Type} (predict : List ℚ → σ → List (List ℚ) × σ)
    (rev : Nat → Char) (n m : Nat) (tseq : List ℚ) (st : σ) (decoded : List Char) :
    decodeSteps predict rev n m tseq st decoded ≠ [] := by
  rw [decodeSteps_eq]
  split <;> simp

theorem mem_dropLast_cons_of_ne_nil {α : Type} {e a : α} {l : List α} (hl : l ≠ [])
    (he : e ∈ (a :: l).dropLast) : e = a ∨ e ∈ l.dropLast := by
  cases l with
  | nil => exact absurd rfl hl
  | cons b bs => simpa using he

theorem decodeSteps_dropLast_no_newline {σ : Type}
    (predict : List ℚ → σ → List (List ℚ) × σ) (rev : Nat → Char) (n m : Nat)
    (tseq : List ℚ) (st : σ) (decoded : List Char) :
    ∀ e ∈ (decodeSteps predict rev n m tseq st decoded).dropLast,
      rev e.2.2 ≠ Char.ofNat 10 := by
  induction tseq, st, decoded using decodeSteps_induction predict rev n m with
  | stop tseq st decoded h =>
    rw [decodeSteps_eq, if_pos h]
    simp
  | cont tseq st decoded h ih =>
    rw [decodeSteps_eq, if_neg h]
    intro e he
    simp only [not_or] at h
    rcases mem_dropLast_cons_of_ne_nil (decodeSteps_ne_nil _ _ _ _ _ _ _) he with he | he
    · subst he; exact h.1
    · exact ih e he

theorem decodeSteps_getD_zero {σ : Type} (predict : List ℚ → σ → List (List ℚ) × σ)
    (rev : Nat → Char) (n m : Nat) (tseq : List ℚ) (st : σ) (decoded : List Char) :
    (decodeSteps predict rev n m tseq st decoded).getD 0 ([], [], 0) =
      (tseq, (predict tseq st).1, npArgmax ((predict tseq st).1.getLastD [])) := by
  rw [decodeSteps_eq]
  split <;> simp

theorem decodeSteps_chain {σ : Type} (predict : List ℚ → σ → List (List ℚ) × σ)
    (rev : Nat → Char) (n m : Nat) (tseq : List ℚ) (st : σ) (decoded : List Char) :
    ∀ i, i + 1 < (decodeSteps predict rev n m tseq st decoded).length →
      ((decodeSteps predict rev n m tseq st decoded).getD (i + 1) ([], [], 0)).1 =
        oneHot n (((decodeSteps predict rev n m tseq st decoded).getD i ([], [], 0)).2.2) := by
  induction tseq, st, decoded using decodeSteps_induction predict rev n m with
  | stop tseq st decoded h =>
    rw [decodeSteps_eq, if_pos h]
    intro i hi
    simp at hi
  | cont tseq st decoded h ih =>
    rw [decodeSteps_eq, if_neg h]
    intro i hi
    simp only [List.length_cons] at hi
    cases i with
    | zero =>
      simp only [List.getD_cons_succ, List.getD_cons_zero]
      rw [decodeSteps_getD_zero]
    | succ k =>
      have := ih k (by omega)
      simpa using this

/-! ## Vocabularies and token indices of `lstm_seq2seq.ipynb`

The data-preparation cell collects the set of characters occurring in the
input texts (resp. in the wrapped target texts), sorts it, and builds
`input_token_index` / `target_token_index` as `char ↦ position` and the
reverse dictionaries `position ↦ char`.  A Python set of characters,
sorted, is modelled by `dedup` followed by `mergeSort`. -/

def sorted_characters (texts : List (List Char)) : List Char :=
  (texts.flatten.dedup).mergeSort (fun a b => a ≤ b)

def input_characters (input_texts : List (List Char)) : List Char :=
  sorted_characters input_texts

def target_characters (target_texts : List (List Char)) : List Char :=
  sorted_characters target_texts

/-- `input_token_index = dict([(char, i) for i, char in enumerate(input_characters)])`:
since `input_characters` has no duplicates, looking a character up in the
dictionary is taking its position in the list. -/
def input_token_index (input_texts : List (List Char)) (c : Char) : Nat :=
  (input_characters input_texts).indexOf c

def target_token_index (target_texts : List (List Char)) (c : Char) : Nat :=
  (target_characters target_texts).indexOf c

/-- `reverse_input_char_index = dict((i, char) for char, i in input_token_index.items())`.
A lookup at a key `i` that is a valid position returns the character at
that position (on out-of-range keys the Python dict raises; we return a
default, which no claim relies on). -/
def reverse_input_char_index (input_texts : List (List Char)) (i : Nat) : Char :=
  (input_characters input_texts).getD i (Char.ofNat 32)

def reverse_target_char_index (target_texts : List (List Char)) (i : Nat) : Char :=
  (target_characters target_texts).getD i (Char.ofNat 32)

theorem sorted_characters_nodup (texts : List (List Char)) :
    (sorted_characters texts).Nodup :=
  ((List.mergeSort_perm _ _).nodup_iff).mpr (List.nodup_dedup _)

theorem getD_indexOf_of_mem {α : Type} [DecidableEq α] {l : List α} {c d : α}
    (hc : c ∈ l) : l.getD (l.indexOf c) d = c := by
  have hlt : l.indexOf c < l.length := List.indexOf_lt_length.mpr hc
  rw [List.getD_eq_getElem l d hlt]
  exact List.getElem_indexOf hlt

theorem indexOf_getD_of_nodup {α : Type} [DecidableEq α] {l : List α} {k : Nat} {d : α}
    (hn : l.Nodup) (hk : k < l.length) : l.indexOf (l.getD k d) = k := by
  rw [List.getD_eq_getElem l d hk]
  exact List.indexOf_getElem hn k hk

/-! ## The one-hot data arrays of `lstm_seq2seq.ipynb`

`encoder_input_data`, `decoder_input_data` and `decoder_target_data` are
zero-initialised arrays written by the fill loops.  We model one sample's
2-D slice `data[i]` as a function `Nat → Nat → ℚ` of timestep and token
index; `mset` is a single element assignment and `msetFrom` the slice
assignment `data[i, t0:, k] = 1.0` (the timestep axis has `maxLen` rows,
so the slice runs up to `maxLen`). -/

def Mat : Type := Nat → Nat → ℚ

def mzero : Mat := fun _ _ => 0

def mset (mat : Mat) (t k : Nat) (v : ℚ) : Mat :=
  fun t2 k2 => if t2 = t ∧ k2 = k then v else mat t2 k2

def msetFrom (mat : Mat) (t0 maxLen k : Nat) (v : ℚ) : Mat :=
  fun t2 k2 => if t0 ≤ t2 ∧ t2 < maxLen ∧ k2 = k then v else mat t2 k2

/-- `for t, char in enumerate(text): data[i, t, tok[char]] = 1.0`. -/
def fill_chars (tok : Char → Nat) (text : List Char) : Mat :=
  text.enum.foldl (fun mat p => mset mat p.1 (tok p.2) 1) mzero

/-- The decoder-target fill:
`if t > 0: decoder_target_data[i, t - 1, tok[char]] = 1.0`. -/
def fill_chars_shifted (tok : Char → Nat) (text : List Char) : Mat :=
  text.enum.foldl
    (fun mat p => if 0 < p.1 then mset mat (p.1 - 1) (tok p.2) 1 else mat) mzero

/-- One sample of `encoder_input_data`: the character loop followed by
`encoder_input_data[i, t + 1:, tok[" "]] = 1.0`, where `t` holds its final
loop value `text.length - 1` (the notebook's texts are non-empty; on an
empty text Python's `t` would be stale or unbound). -/
def encoder_input_sample (tok : Char → Nat) (maxLen : Nat) (text : List Char) : Mat :=
  msetFrom (fill_chars tok text) ((text.length - 1) + 1) maxLen (tok (Char.ofNat 32)) 1

/-- One sample of `decoder_input_data`:
the character loop followed by `decoder_input_data[i, t + 1:, tok[" "]] = 1.0`. -/
def decoder_input_sample (tok : Char → Nat) (maxLen : Nat) (text : List Char) : Mat :=
  msetFrom (fill_chars tok text) ((text.length - 1) + 1) maxLen (tok (Char.ofNat 32)) 1

/-- One sample of `decoder_target_data`: the shifted character loop
followed by `decoder_target_data[i, t:, tok[" "]] = 1.0`. -/
def decoder_target_sample (tok : Char → Nat) (maxLen : Nat) (text : List Char) : Mat :=
  msetFrom (fill_chars_shifted tok text) (text.length - 1) maxLen (tok (Char.ofNat 32)) 1

/-- The whole `decoder_input_data` array, one `Mat` per target text: the
second component of the `x` argument of `model.fit`. -/
def decoder_input_data (tok : Char → Nat) (maxLen : Nat)
    (target_texts : List (List Char)) : List Mat :=
  target_texts.map (decoder_input_sample tok maxLen)

/-- The whole `decoder_target_data` array: the `y` argument of `model.fit`. -/
def decoder_target_data (tok : Char → Nat) (maxLen : Nat)
    (target_texts : List (List Char)) : List Mat :=
  target_texts.map (decoder_target_sample tok maxLen)

theorem fill_chars_none (tok : Char → Nat) (l : List (Nat × Char)) (m0 : Mat)
    (t k : Nat) (h : ∀ p ∈ l, ¬(p.1 = t ∧ tok p.2 = k)) :
    (l.foldl (fun mat p => mset mat p.1 (tok p.2) 1) m0) t k = m0 t k := by
  induction l generalizing m0 with
  | nil => simp
  | cons p l ih =>
    rw [List.foldl_cons, ih _ (fun q hq => h q (List.mem_cons_of_mem p hq))]
    have hp := h p (List.mem_cons_self p l)
    simp only [mset]
    rw [if_neg (fun hc => hp ⟨hc.1.symm, hc.2.symm⟩)]

theorem fill_chars_eq_one (tok : Char → Nat) (l : List (Nat × Char)) (m0 : Mat)
    (t k : Nat) (h : ∃ p ∈ l, p.1 = t ∧ tok p.2 = k) :
    (l.foldl (fun mat p => mset mat p.1 (tok p.2) 1) m0) t k = 1 := by
  induction l generalizing m0 with
  | nil => simp at h
  | cons p l ih =>
    rw [List.foldl_cons]
    by_cases hp : ∃ q ∈ l, q.1 = t ∧ tok q.2 = k
    · exact ih _ hp
    · rcases h with ⟨q, hq, hq1, hq2⟩
      rcases List.mem_cons.mp hq with rfl | hmem
      · have : ∀ q ∈ l, ¬(q.1 = t ∧ tok q.2 = k) := by
          intro q hql hqc
          exact hp ⟨q, hql, hqc⟩
        rw [fill_chars_none tok l _ t k this]
        simp [mset, hq1, hq2]
      · exact absurd ⟨q, hmem, hq1, hq2⟩ hp

theorem fill_chars_shifted_none (tok : Char → Nat) (l : List (Nat × Char)) (m0 : Mat)
    (t k : Nat) (h : ∀ p ∈ l, ¬(0 < p.1 ∧ p.1 - 1 = t ∧ tok p.2 = k)) :
    (l.foldl (fun mat p => if 0 < p.1 then mset mat (p.1 - 1) (tok p.2) 1 else mat) m0)
      t k = m0 t k := by
  induction l generalizing m0 with
  | nil => simp
  | cons p l ih =>
    rw [List.foldl_cons, ih _ (fun q hq => h q (List.mem_cons_of_mem p hq))]
    have hp := h p (List.mem_cons_self p l)
    by_cases h0 : 0 < p.1
    · rw [if_pos h0]
      simp only [mset]
      rw [if_neg (fun hc => hp ⟨h0, hc.1.symm, hc.2.symm⟩)]
    · rw [if_neg h0]

theorem fill_chars_shifted_eq_one (tok : Char → Nat) (l : List (Nat × Char)) (m0 : Mat)
    (t k : Nat) (h : ∃ p ∈ l, 0 < p.1 ∧ p.1 - 1 = t ∧ tok p.2 = k) :
    (l.foldl (fun mat p => if 0 < p.1 then mset mat (p.1 - 1) (tok p.2) 1 else mat) m0)
      t k = 1 := by
  induction l generalizing m0 with
  | nil => simp at h
  | cons p l ih =>
    rw [List.foldl_cons]
    by_cases hp : ∃ q ∈ l, 0 < q.1 ∧ q.1 - 1 = t ∧ tok q.2 = k
    · exact ih _ hp
    · rcases h with ⟨q, hq, hq0, hq1, hq2⟩
      rcases List.mem_cons.mp hq with rfl | hmem
      · have hnone : ∀ q ∈ l, ¬(0 < q.1 ∧ q.1 - 1 = t ∧ tok q.2 = k) := by
          intro q hql hqc
          exact hp ⟨q, hql, hqc⟩
        rw [fill_chars_shifted_none tok l _ t k hnone, if_pos hq0]
        simp [mset, hq1, hq2]
      · exact absurd ⟨q, hmem, hq0, hq1, hq2⟩ hp

/-- Value of the character-loop writes on a row belonging to the text:
row `t` is the one-hot row of the text's character at `t`. -/
theorem fill_chars_value (tok : Char → Nat) (text : List Char) (t k : Nat)
    (ht : t < text.length) :
    fill_chars tok text t k =
      if k = tok (text.getD t (Char.ofNat 32)) then 1 else 0 := by
  have hget : text[t]? = some (text.getD t (Char.ofNat 32)) := by
    rw [List.getD_eq_getElem _ _ ht]
    exact List.getElem?_eq_getElem ht
  by_cases hk : k = tok (text.getD t (Char.ofNat 32))
  · rw [if_pos hk]
    exact fill_chars_eq_one tok text.enum mzero t k
      ⟨(t, text.getD t (Char.ofNat 32)),
        List.mk_mem_enum_iff_getElem?.mpr hget, rfl, hk.symm⟩
  · rw [if_neg hk]
    have hnone : ∀ p ∈ text.enum, ¬(p.1 = t ∧ tok p.2 = k) := by
      intro p hp hc
      obtain ⟨h1, h2⟩ := hc
      have := List.mem_enum_iff_getElem?.mp hp
      rw [h1, hget] at this
      exact hk (h2 ▸ congrArg tok (Option.some_injective _ this).symm)
    exact fill_chars_none tok text.enum mzero t k hnone

/-- The character-loop writes touch no row at or beyond the text length. -/
theorem fill_chars_value_beyond (tok : Char → Nat) (text : List Char) (t k : Nat)
    (ht : text.length ≤ t) : fill_chars tok text t k = 0 := by
  have hnone : ∀ p ∈ text.enum, ¬(p.1 = t ∧ tok p.2 = k) := by
    intro p hp hc
    have := List.mem_enum_iff_getElem?.mp hp
    rw [hc.1, List.getElem?_eq_none ht] at this
    exact Option.noConfusion this
  exact fill_chars_none tok text.enum mzero t k hnone

/-- Value of the shifted character-loop writes: row `t` before the
text-length-minus-one boundary is the one-hot row of the character at
`t + 1`. -/
theorem fill_chars_shifted_value (tok : Char → Nat) (text : List Char) (t k : Nat)
    (ht : t + 1 < text.length) :
    fill_chars_shifted tok text t k =
      if k = tok (text.getD (t + 1) (Char.ofNat 32)) then 1 else 0 := by
  have hget : text[t + 1]? = some (text.getD (t + 1) (Char.ofNat 32)) := by
    rw [List.getD_eq_getElem _ _ ht]
    exact List.getElem?_eq_getElem ht
  by_cases hk : k = tok (text.getD (t + 1) (Char.ofNat 32))
  · rw [if_pos hk]
    exact fill_chars_shifted_eq_one tok text.enum mzero t k
      ⟨(t + 1, text.getD (t + 1) (Char.ofNat 32)),
        List.mk_mem_enum_iff_getElem?.mpr hget, Nat.succ_pos t, rfl, hk.symm⟩
  · rw [if_neg hk]
    have hnone : ∀ p ∈ text.enum, ¬(0 < p.1 ∧ p.1 - 1 = t ∧ tok p.2 = k) := by
      intro p hp hc
      obtain ⟨h0, h1, h2⟩ := hc
      have hp1 : p.1 = t + 1 := by omega
      have := List.mem_enum_iff_getElem?.mp hp
      rw [hp1, hget] at this
      exact hk (h2 ▸ congrArg tok (Option.some_injective _ this).symm)
    exact fill_chars_shifted_none tok text.enum mzero t k hnone

/-- Row `t` of one sample of `encoder_input_data` (identically,
`decoder_input_data`): inside the text it one-hot encodes the text's
character at `t`, and from the text's end up to `maxLen` it one-hot
encodes the padding space character. -/
theorem encoder_input_sample_value (tok : Char → Nat) (maxLen : Nat)
    (text : List Char) (t k : Nat) (hne : text ≠ []) (ht : t < maxLen) :
    encoder_input_sample tok maxLen text t k =
      if k = tok (if t < text.length then text.getD t (Char.ofNat 32)
                  else Char.ofNat 32) then 1 else 0 := by
  have hlen : 0 < text.length := List.length_pos.mpr hne
  rw [encoder_input_sample]
  by_cases hin : t < text.length
  · have hslice : ¬(text.length - 1 + 1 ≤ t ∧ t < maxLen ∧ k = tok (Char.ofNat 32)) := by
      intro hc
      omega
    simp only [msetFrom]
    rw [if_neg hslice, if_pos hin, fill_chars_value tok text t k hin]
  · have hslice : (text.length - 1 + 1 ≤ t ∧ t < maxLen ∧ k = tok (Char.ofNat 32)) ↔
        k = tok (Char.ofNat 32) := by
      constructor
      · exact fun hc => hc.2.2
      · intro hk
        exact ⟨by omega, ht, hk⟩
    simp only [msetFrom]
    rw [if_neg hin]
    by_cases hk : k = tok (Char.ofNat 32)
    · rw [if_pos (hslice.mpr hk), if_pos hk]
    · rw [if_neg (fun hc => hk (hslice.mp hc)), if_neg hk,
        fill_chars_value_beyond tok text t k (by omega)]

theorem decoder_input_sample_value (tok : Char → Nat) (maxLen : Nat)
    (text : List Char) (t k : Nat) (hne : text ≠ []) (ht : t < maxLen) :
    decoder_input_sample tok maxLen text t k =
      if k = tok (if t < text.length then text.getD t (Char.ofNat 32)
                  else Char.ofNat 32) then 1 else 0 :=
  encoder_input_sample_value tok maxLen text t k hne ht

/-- Rows inside the text of `encoder_input_data` / `decoder_input_data`
do not depend on `maxLen`: the slice write only touches rows from the
text's end on. -/
theorem input_sample_value_lt (tok : Char → Nat) (maxLen : Nat)
    (text : List Char) (t k : Nat) (hin : t < text.length) :
    encoder_input_sample tok maxLen text t k =
      if k = tok (text.getD t (Char.ofNat 32)) then 1 else 0 := by
  rw [encoder_input_sample]
  have hslice : ¬(text.length - 1 + 1 ≤ t ∧ t < maxLen ∧ k = tok (Char.ofNat 32)) := by
    intro hc
    omega
  simp only [msetFrom]
  rw [if_neg hslice, fill_chars_value tok text t k hin]

/-- Row `t` of one sample of `decoder_target_data`, on the rows strictly
before the text's last character: the one-hot row of the character at
`t + 1` (the one-timestep shift). -/
theorem decoder_target_sample_value (tok : Char → Nat) (maxLen : Nat)
    (text : List Char) (t k : Nat) (ht : t + 1 < text.length) :
    decoder_target_sample tok maxLen text t k =
      if k = tok (text.getD (t + 1) (Char.ofNat 32)) then 1 else 0 := by
  rw [decoder_target_sample]
  have hslice : ¬(text.length - 1 ≤ t ∧ t < maxLen ∧ k = tok (Char.ofNat 32)) := by
    intro hc
    omega
  simp only [msetFrom]
  rw [if_neg hslice, fill_chars_shifted_value tok text t k ht]

/-! ## The data-vectorization cell of `lstm_seq2seq.ipynb` as executed

The cell reads the data file, splits it into lines on `"\n"`, and for the
first `min(num_samples, len(lines) - 1)` lines unpacks
`input_text, target_text, _ = line.split("\t")` (raising `ValueError`
unless the line has exactly three tab-separated fields), wraps the target
text in the tab/newline sentinels, builds the vocabularies, token indices
and zero arrays — and then executes a stray statement consisting of the
bare name `w`, which raises `NameError` before any fill loop runs.  We
model the cell as a fallible computation returning the input and target
texts it would go on to vectorize. -/

/-- Python's `str.split(sep)` for a one-character separator. -/
def pySplit (sep : Char) : List Char → List (List Char)
  | [] => [[]]
  | c :: rest =>
    match pySplit sep rest with
    | [] => [[]]
    | g :: gs => if c = sep then [] :: g :: gs else (c :: g) :: gs

def vectorize_cell (content : List Char) (num_samples : Nat) :
    Except (List Char) (List (List Char) × List (List Char)) := do
  let lines := pySplit (Char.ofNat 10) content
  let pairs ← (lines.take (min num_samples (lines.length - 1))).mapM (fun line =>
    match pySplit (Char.ofNat 9) line with
    | [a, b, _c] => Except.ok (a, Char.ofNat 9 :: (b ++ [Char.ofNat 10]))
    | _ => Except.error (String.toList ("ValueError: unpack mismatch")))
  let _input_texts := pairs.map (fun p => p.1)
  let _target_texts := pairs.map (fun p => p.2)
  -- the vocabularies, token indices and `np.zeros` arrays are further pure
  -- computations; then the stray bare name `w` raises:
  Except.error (String.toList ("NameError: name w is not defined"))

theorem mapM_ok_of_forall_ok {α β ε : Type} (f : α → Except ε β) (l : List α)
    (h : ∀ x ∈ l, ∃ y, f x = Except.ok y) : ∃ v, l.mapM f = Except.ok v := by
  induction l with
  | nil => exact ⟨[], rfl⟩
  | cons x xs ih =>
    obtain ⟨y, hy⟩ := h x (List.mem_cons_self x xs)
    obtain ⟨v, hv⟩ := ih (fun z hz => h z (List.mem_cons_of_mem x hz))
    refine ⟨y :: v, ?_⟩
    rw [List.mapM_cons, hy, hv]
    rfl

/-! ## The MLP preprocessing pipeline of `keras_introduction.ipynb`

`X_train.reshape(50000, 3072)` flattens the `(50000, 32, 32, 3)` CIFAR-10
array in row-major order and regroups it into rows of `3072` elements
(NumPy raises unless the element count matches exactly), and the Gaussian
normalization replaces every element `x` by `(x - np.mean(A)) / np.std(A)`
with the mean and standard deviation taken over the entire array `A`
(`X_train` for the training array, `X_test` for the test array).  An image
is a `32 × 32 × 3` nested list; `np.std(A)` is not rational, so it enters
as a parameter `s` characterized in the theorems as the non-negative
square root of the variance of `A`. -/

def flattenImage (img : List (List (List ℚ))) : List ℚ :=
  (img.map List.flatten).flatten

/-- Row-major flattening of the whole `(N, 32, 32, 3)` array. -/
def X_flat (X : List (List (List (List ℚ)))) : List ℚ :=
  (X.map flattenImage).flatten

/-- Grouping into rows of `k + 1` elements (the chunk width is kept
positive by construction; `npReshape` instantiates it at `m - 1` for a
positive `m`). -/
def chunksOfSucc (k : Nat) : List ℚ → List (List ℚ)
  | [] => []
  | x :: xs => (x :: xs).take (k + 1) :: chunksOfSucc k ((x :: xs).drop (k + 1))
termination_by l => l.length
decreasing_by
  simp only [List.length_drop, List.length_cons]
  omega

/-- NumPy's `reshape(n, m)` on a row-major flattened array: defined only
when the element count is exactly `n * m` (here `m = 3072 > 0`). -/
def npReshape (n m : Nat) (flat : List ℚ) : Option (List (List ℚ)) :=
  if flat.length = n * m ∧ 0 < m then some (chunksOfSucc (m - 1) flat) else none

/-- `X_train.reshape(n, 3072)` on the list-of-images representation. -/
def reshape_X (n : Nat) (X : List (List (List (List ℚ)))) : Option (List (List ℚ)) :=
  npReshape n 3072 (X_flat X)

def listMean (l : List ℚ) : ℚ := l.sum / l.length

def listVariance (l : List ℚ) : ℚ :=
  (l.map (fun x => (x - listMean l) ^ 2)).sum / l.length

/-- `(A - np.mean(A)) / np.std(A)` elementwise, with `np.std(A)` passed
as `s`. -/
def gauss_normalize (s : ℚ) (rows : List (List ℚ)) : List (List ℚ) :=
  rows.map (fun row => row.map (fun x => (x - listMean rows.flatten) / s))

theorem chunksOfSucc_cons (k : Nat) (l : List ℚ) (h : l ≠ []) :
    chunksOfSucc k l = l.take (k + 1) :: chunksOfSucc k (l.drop (k + 1)) := by
  cases l with
  | nil => exact absurd rfl h
  | cons x xs => rw [chunksOfSucc]

/-- Regrouping a flattened list of uniform rows recovers the rows: the
reshape is lossless. -/
theorem chunksOfSucc_flatten (k : Nat) (L : List (List ℚ))
    (h : ∀ r ∈ L, r.length = k + 1) : chunksOfSucc k L.flatten = L := by
  induction L with
  | nil => rw [List.flatten_nil, chunksOfSucc]
  | cons r L ih =>
    have hr : r.length = k + 1 := h r (List.mem_cons_self r L)
    have hne : r ++ L.flatten ≠ [] := by
      intro hc
      have := congrArg List.length hc
      simp [hr] at this
    rw [List.flatten_cons, chunksOfSucc_cons k _ hne, ← hr, List.take_left,
      List.drop_left, ih (fun q hq => h q (List.mem_cons_of_mem r hq))]

theorem flatten_length_uniform {α : Type} (m : Nat) (L : List (List α))
    (h : ∀ r ∈ L, r.length = m) : L.flatten.length = L.length * m := by
  induction L with
  | nil => simp
  | cons r L ih =>
    have hr := h r (List.mem_cons_self r L)
    rw [List.flatten_cons, List.length_append, hr,
      ih (fun q hq => h q (List.mem_cons_of_mem r hq)), List.length_cons]
    ring

theorem flatten_getD_uniform (m : Nat) (L : List (List ℚ))
    (h : ∀ r ∈ L, r.length = m) (i j : Nat) (hi : i < L.length) (hj : j < m) :
    L.flatten.getD (i * m + j) 0 = (L.getD i []).getD j 0 := by
  induction L generalizing i with
  | nil => simp at hi
  | cons r L ih =>
    have hr := h r (List.mem_cons_self r L)
    cases i with
    | zero =>
      rw [List.flatten_cons]
      simp only [Nat.zero_mul, Nat.zero_add, List.getD_cons_zero]
      rw [List.getD_append _ _ _ _ (by omega)]
    | succ i2 =>
      rw [List.flatten_cons]
      have hidx : (i2 + 1) * m + j = r.length + (i2 * m + j) := by
        rw [hr]; ring
      rw [hidx, List.getD_append_right _ _ _ _ (by omega)]
      simp only [Nat.add_sub_cancel_left, List.getD_cons_succ]
      exact ih (fun q hq => h q (List.mem_cons_of_mem r hq)) i2 (by simpa using hi)

theorem getD_map_of_lt {α β : Type} (f : α → β) (l : List α) (i : Nat) (d : β) (d2 : α)
    (hi : i < l.length) : (l.map f).getD i d = f (l.getD i d2) := by
  rw [List.getD_eq_getElem _ _ (by simpa using hi), List.getD_eq_getElem _ _ hi]
  simp

/-! ## The MLP training loop with early stopping -/

/-- The running minimum of the monitored validation metric over epochs
`0..e` (the callback's `best` value while training is under way). -/
def best_up_to (metric : Nat → ℚ) : Nat → ℚ
  | 0 => metric 0
  | e + 1 => min (best_up_to metric e) (metric (e + 1))

/-- Modelled from the spec: the Keras `EarlyStopping(patience=7)` callback
used by `keras_introduction.ipynb` "halts optimization once a monitored
validation metric stops improving for a set number of epochs" (the
callback itself is framework code, not part of the repository).  After
each epoch `i` with metric value `metric i`, an improvement over the best
value seen so far resets the wait counter and updates the best value, a
non-improvement increments the wait counter, and training stops once the
wait counter reaches `patience`.  `es_aux metric patience r i wait best`
returns the total number of epochs run, with `r` epochs remaining out of
the configured maximum, `i` epochs already run, and `wait`/`best` the
callback state. -/
def es_aux (metric : Nat → ℚ) (patience : Nat) : Nat → Nat → Nat → Option ℚ → Nat
  | 0, i, _, _ => i
  | r + 1, i, _wait, none =>
    -- first epoch: with no best value yet, the epoch counts as an
    -- improvement, resetting the wait counter and recording the best
    if patience ≤ 0 then i + 1
    else es_aux metric patience r (i + 1) 0 (some (metric i))
  | r + 1, i, wait, some b =>
    if metric i < b then
      -- improvement: reset the wait counter, update the best value
      (if patience ≤ 0 then i + 1
       else es_aux metric patience r (i + 1) 0 (some (metric i)))
    else
      -- no improvement: increment the wait counter, stop at `patience`
      (if patience ≤ wait + 1 then i + 1
       else es_aux metric patience r (i + 1) (wait + 1) (some b))

/-- The number of epochs `model.fit(..., epochs=max_epochs,
callbacks=[EarlyStopping(patience=patience)])` executes, given the
validation metric value of every epoch. -/
def es_epochs_run (metric : Nat → ℚ) (patience max_epochs : Nat) : Nat :=
  es_aux metric patience max_epochs 0 0 none

theorem es_aux_le (metric : Nat → ℚ) (patience : Nat) (r : Nat) :
    ∀ i wait best, es_aux metric patience r i wait best ≤ i + r := by
  induction r with
  | zero => intro i wait best; rw [es_aux]; omega
  | succ r ih =>
    intro i wait best
    match best with
    | none =>
      rw [es_aux]
      split
      · omega
      · have := ih (i + 1) 0 (some (metric i))
        omega
    | some b =>
      rw [es_aux]
      split
      · split
        · omega
        · have := ih (i + 1) 0 (some (metric i))
          omega
      · split
        · omega
        · have := ih (i + 1) (wait + 1) (some b)
          omega

theorem es_aux_stop (metric : Nat → ℚ) (patience : Nat) (r : Nat) :
    ∀ i wait b, wait < patience →
      (∀ j, i ≤ j → j < i + (patience - wait) → b ≤ metric j) →
      es_aux metric patience r i wait (some b) ≤ i + (patience - wait) := by
  induction r with
  | zero => intro i wait b hw _; rw [es_aux]; omega
  | succ r ih =>
    intro i wait b hw hj
    have hcur : b ≤ metric i := hj i le_rfl (by omega)
    rw [es_aux, if_neg (not_lt.mpr hcur)]
    split
    · omega
    next hlt =>
      have hw2 : wait + 1 < patience := by omega
      have := ih (i + 1) (wait + 1) b hw2
        (fun j h1 h2 => hj j (by omega) (by omega))
      omega

theorem best_up_to_succ_pred (metric : Nat → ℚ) (i : Nat) (h1 : 1 ≤ i) :
    best_up_to metric (i + 1 - 1) =
      min (best_up_to metric (i - 1)) (metric i) := by
  have hi : i = (i - 1) + 1 := by omega
  rw [Nat.add_sub_cancel, hi, best_up_to, ← hi]

theorem es_aux_window (metric : Nat → ℚ) (patience : Nat) (hp : 0 < patience)
    (e : Nat) (hw : ∀ j, e < j → j ≤ e + patience → best_up_to metric e ≤ metric j)
    (r : Nat) :
    ∀ i wait, 1 ≤ i → i ≤ e + 1 → wait < patience →
      es_aux metric patience r i wait (some (best_up_to metric (i - 1))) ≤
        e + patience + 1 := by
  induction r with
  | zero => intro i wait h1 h2 h3; rw [es_aux]; omega
  | succ r ih =>
    intro i wait h1 h2 h3
    by_cases hie : i = e + 1
    · subst hie
      have hbeq : best_up_to metric (e + 1 - 1) = best_up_to metric e := by
        norm_num
      have := es_aux_stop metric patience (r + 1) (e + 1) wait
        (best_up_to metric (e + 1 - 1)) h3
        (fun j hj1 hj2 => by
          rw [hbeq]
          exact hw j (by omega) (by omega))
      omega
    · have hile : i ≤ e := by omega
      by_cases himp : metric i < best_up_to metric (i - 1)
      · rw [es_aux, if_pos himp, if_neg (by omega)]
        have hb2 : some (metric i) = some (best_up_to metric (i + 1 - 1)) := by
          rw [best_up_to_succ_pred metric i h1, min_eq_right himp.le]
        rw [hb2]
        exact ih (i + 1) 0 (by omega) (by omega) hp
      · rw [es_aux, if_neg himp]
        split
        · omega
        next hlt =>
          have hb2 : some (best_up_to metric (i - 1)) =
              some (best_up_to metric (i + 1 - 1)) := by
            rw [best_up_to_succ_pred metric i h1, min_eq_left (not_lt.mp himp)]
          rw [hb2]
          exact ih (i + 1) (wait + 1) (by omega) (by omega) (by omega)

/-! ## Helper lemmas for constant arrays -/

theorem listMean_of_all_zero (l : List ℚ) (h : ∀ x ∈ l, x = 0) : listMean l = 0 := by
  rw [listMean, List.sum_eq_zero h]
  simp

theorem listVariance_of_all_zero (l : List ℚ) (h : ∀ x ∈ l, x = 0) :
    listVariance l = 0 := by
  rw [listVariance, List.sum_eq_zero]
  · simp
  · intro y hy
    obtain ⟨x, hx, rfl⟩ := List.mem_map.mp hy
    rw [h x hx, listMean_of_all_zero l h]
    ring

/-! ## The claims -/

/-- C1: for every input sequence, `decode_sequence` terminates: the
sampling loop stops on the sentinel `"\n"` or once the decoded sentence
passes `max_decoder_seq_length`, each iteration appends exactly one
character to the decoded sentence, and the loop executes at most
`max_decoder_seq_length + 1` iterations.  The list of iterations is the
trace `decodeSteps`; its length bounds the iteration count and equals the
length of the returned sentence. -/
theorem decode_sequence_terminates
    (encoder_predict : List (List ℚ) → List ℚ × List ℚ)
    (decoder_predict : List ℚ → List ℚ × List ℚ → List (List ℚ) × (List ℚ × List ℚ))
    (rev : Nat → Char) (n m si : Nat) (input_seq : List (List ℚ)) :
    (decodeSteps decoder_predict rev n m (oneHot n si)
        (encoder_predict input_seq) []).length ≤ m + 1 ∧
    (decode_sequence encoder_predict decoder_predict rev n m si input_seq).length =
      (decodeSteps decoder_predict rev n m (oneHot n si)
        (encoder_predict input_seq) []).length := by
  constructor
  · have := decodeSteps_length_le decoder_predict rev n m (oneHot n si)
      (encoder_predict input_seq) [] (by simp)
    simpa using this
  · rw [decode_sequence, decodeLoop_eq_append_map]
    simp

/-- C4: at every iteration of the inference loop the sampled token index
is `np.argmax` of the decoder prediction at the last timestep (the first
index of maximal probability), the character appended to the decoded
sentence is `reverse_target_char_index` of that index, and the next
one-step target sequence is the one-hot vector of exactly that index; the
first target sequence is the one-hot vector of the start index. -/
theorem decode_argmax_sampling
    (encoder_predict : List (List ℚ) → List ℚ × List ℚ)
    (decoder_predict : List ℚ → List ℚ × List ℚ → List (List ℚ) × (List ℚ × List ℚ))
    (rev : Nat → Char) (n m si : Nat) (input_seq : List (List ℚ)) :
    decode_sequence encoder_predict decoder_predict rev n m si input_seq =
      (decodeSteps decoder_predict rev n m (oneHot n si)
        (encoder_predict input_seq) []).map (fun e => rev e.2.2) ∧
    (∀ e ∈ decodeSteps decoder_predict rev n m (oneHot n si)
        (encoder_predict input_seq) [],
      e.2.2 = npArgmax (e.2.1.getLastD []) ∧
      (∀ j, j < (e.2.1.getLastD []).length →
        (e.2.1.getLastD []).getD j 0 ≤ (e.2.1.getLastD []).getD e.2.2 0) ∧
      (∀ j, j < e.2.2 →
        (e.2.1.getLastD []).getD j 0 < (e.2.1.getLastD []).getD e.2.2 0)) ∧
    ((decodeSteps decoder_predict rev n m (oneHot n si)
        (encoder_predict input_seq) []).getD 0 ([], [], 0)).1 = oneHot n si ∧
    (∀ i2, i2 + 1 < (decodeSteps decoder_predict rev n m (oneHot n si)
        (encoder_predict input_seq) []).length →
      ((decodeSteps decoder_predict rev n m (oneHot n si)
          (encoder_predict input_seq) []).getD (i2 + 1) ([], [], 0)).1 =
        oneHot n (((decodeSteps decoder_predict rev n m (oneHot n si)
          (encoder_predict input_seq) []).getD i2 ([], [], 0)).2.2)) := by
  refine ⟨?_, ?_, ?_, ?_⟩
  · rw [decode_sequence, decodeLoop_eq_append_map]
    simp
  · intro e he
    have hidx := decodeSteps_sampled_char decoder_predict rev n m (oneHot n si)
      (encoder_predict input_seq) [] e he
    refine ⟨hidx, ?_, ?_⟩
    · intro j hj
      rw [hidx]
      exact npArgmax_is_max (e.2.1.getLastD []) j hj
    · intro j hj
      rw [hidx] at hj ⊢
      exact npArgmax_first (e.2.1.getLastD []) j hj
  · rw [decodeSteps_getD_zero]
  · exact decodeSteps_chain decoder_predict rev n m (oneHot n si)
      (encoder_predict input_seq) []

/-- C5: `decode_sequence` reads its input sequence only through the one
call `encoder_model.predict(input_seq)`, which yields the pair of state
vectors `(h, c)`; hence any two input sequences on which the encoder
returns equal states decode to the same sentence. -/
theorem decode_sequence_depends_only_on_states
    (encoder_predict : List (List ℚ) → List ℚ × List ℚ)
    (decoder_predict : List ℚ → List ℚ × List ℚ → List (List ℚ) × (List ℚ × List ℚ))
    (rev : Nat → Char) (n m si : Nat) (s1 s2 : List (List ℚ))
    (h : encoder_predict s1 = encoder_predict s2) :
    decode_sequence encoder_predict decoder_predict rev n m si s1 =
      decode_sequence encoder_predict decoder_predict rev n m si s2 := by
  rw [decode_sequence, decode_sequence, h]

theorem decode_sequence_depends_only_on_states_witness :
    ((fun _ : List (List ℚ) => (([0], [0]) : List ℚ × List ℚ)) [[1]] =
      (fun _ : List (List ℚ) => (([0], [0]) : List ℚ × List ℚ)) [[2]]) ∧
    decode_sequence (fun _ => ([0], [0])) (fun _ st => ([[1]], st))
        (fun _ => Char.ofNat 65) 1 0 0 [[1]] =
      decode_sequence (fun _ => ([0], [0])) (fun _ st => ([[1]], st))
        (fun _ => Char.ofNat 65) 1 0 0 [[2]] :=
  ⟨rfl, decode_sequence_depends_only_on_states (fun _ => ([0], [0]))
    (fun _ st => ([[1]], st)) (fun _ => Char.ofNat 65) 1 0 0 [[1]] [[2]] rfl⟩

/-- C8 as stated is false: a decoded sentence longer than
`max_decoder_seq_length` can still contain the sentinel, when the sentinel
is sampled exactly at the final, cap-exceeding iteration.  With
`max_decoder_seq_length = 1` and a decoder that samples a non-sentinel
character first and the sentinel second, the decoded sentence has length
`2 > 1` and contains `"\n"`. -/
theorem decoded_length_counterexample :
    1 < (decode_sequence (fun _ => ([0], [0]))
        (fun _ st => if st.1 = [0] then ([[1, 0]], ([1], [0])) else ([[0, 1]], st))
        (fun i2 => if i2 = 0 then Char.ofNat 97 else Char.ofNat 10)
        2 1 0 [[0]]).length ∧
    Char.ofNat 10 ∈ decode_sequence (fun _ => ([0], [0]))
        (fun _ st => if st.1 = [0] then ([[1, 0]], ([1], [0])) else ([[0, 1]], st))
        (fun i2 => if i2 = 0 then Char.ofNat 97 else Char.ofNat 10)
        2 1 0 [[0]] := by
  have h1 : decode_sequence (fun _ => ([0], [0]))
      (fun _ st => if st.1 = [0] then ([[1, 0]], ([1], [0])) else ([[0, 1]], st))
      (fun i2 => if i2 = 0 then Char.ofNat 97 else Char.ofNat 10)
      2 1 0 [[0]] = [Char.ofNat 97, Char.ofNat 10] := by
    rw [decode_sequence, decodeLoop_eq, if_neg (by decide), decodeLoop_eq,
      if_pos (by decide)]
    decide
  rw [h1]
  decide

/-- C8, amended: the string returned by `decode_sequence` has length at
most `max_decoder_seq_length + 1`, and the sentinel `"\n"` can only be
its final character; hence a string longer than `max_decoder_seq_length`
arises only when no sentinel is sampled during the first
`max_decoder_seq_length` iterations (the sentinel may still be sampled at
the final, `max_decoder_seq_length + 1`-st iteration, and is then included
in the returned string). -/
theorem decoded_length_le_amended
    (encoder_predict : List (List ℚ) → List ℚ × List ℚ)
    (decoder_predict : List ℚ → List ℚ × List ℚ → List (List ℚ) × (List ℚ × List ℚ))
    (rev : Nat → Char) (n m si : Nat) (input_seq : List (List ℚ)) :
    (decode_sequence encoder_predict decoder_predict rev n m si input_seq).length ≤
      m + 1 ∧
    Char.ofNat 10 ∉
      (decode_sequence encoder_predict decoder_predict rev n m si input_seq).dropLast := by
  constructor
  · rw [decode_sequence, decodeLoop_eq_append_map]
    have := decodeSteps_length_le decoder_predict rev n m (oneHot n si)
      (encoder_predict input_seq) [] (by simp)
    simpa using this
  · rw [decode_sequence, decodeLoop_eq_append_map]
    simp only [List.nil_append, ← List.map_dropLast]
    intro hmem
    obtain ⟨e, he, heq⟩ := List.mem_map.mp hmem
    exact decodeSteps_dropLast_no_newline decoder_predict rev n m (oneHot n si)
      (encoder_predict input_seq) [] e he heq

/-- C2 is a genuine bug in the notebook: the vectorization cell contains a
stray statement consisting of the bare name `w` between the `np.zeros`
allocations and the fill loops, so even on a well-formed data file, in
which every selected line has exactly three tab-separated fields, the cell
raises `NameError` instead of finishing and filling the arrays. -/
theorem vectorize_cell_raises_name_error (content : List Char) (num_samples : Nat)
    (h : ∀ line ∈ (pySplit (Char.ofNat 10) content).take
        (min num_samples ((pySplit (Char.ofNat 10) content).length - 1)),
      (pySplit (Char.ofNat 9) line).length = 3) :
    vectorize_cell content num_samples =
      Except.error (String.toList ("NameError: name w is not defined")) := by
  obtain ⟨v, hv⟩ := mapM_ok_of_forall_ok
    (fun line => match pySplit (Char.ofNat 9) line with
      | [a, b, _c] => Except.ok (a, Char.ofNat 9 :: (b ++ [Char.ofNat 10]))
      | _ => Except.error (String.toList ("ValueError: unpack mismatch")))
    ((pySplit (Char.ofNat 10) content).take
      (min num_samples ((pySplit (Char.ofNat 10) content).length - 1)))
    (fun line hline => by
      obtain ⟨a, b, c, habc⟩ := List.length_eq_three.mp (h line hline)
      exact ⟨(a, Char.ofNat 9 :: (b ++ [Char.ofNat 10])), by simp only [habc]⟩)
  rw [vectorize_cell, hv]
  rfl

theorem vectorize_cell_raises_name_error_witness :
    (∀ line ∈ (pySplit (Char.ofNat 10)
          (String.toList ("Go.\tVa !\tCC-BY\nRun !\tCours !\tCC-BY\n"))).take
        (min 10000 ((pySplit (Char.ofNat 10)
          (String.toList ("Go.\tVa !\tCC-BY\nRun !\tCours !\tCC-BY\n"))).length - 1)),
      (pySplit (Char.ofNat 9) line).length = 3) ∧
    vectorize_cell (String.toList ("Go.\tVa !\tCC-BY\nRun !\tCours !\tCC-BY\n")) 10000 =
      Except.error (String.toList ("NameError: name w is not defined")) :=
  ⟨by decide, vectorize_cell_raises_name_error _ 10000 (by decide)⟩

/-- C3: teacher forcing.  For every sample `i` and position `t` with
`1 ≤ t < len(target_texts[i])`, row `t - 1` of `decoder_target_data[i]`
(the `y` argument handed to `model.fit`) equals row `t` of
`decoder_input_data[i]` (the decoder part of the `x` argument handed to
`model.fit`), and both are the one-hot encoding of the same character
`target_texts[i][t]`: the targets are the decoder inputs shifted one
timestep earlier, so training feeds the decoder the true previous output
token. -/
theorem teacher_forcing_shift (tok : Char → Nat) (maxLen : Nat)
    (target_texts : List (List Char)) (i t k : Nat)
    (hi : i < target_texts.length) (ht1 : 1 ≤ t)
    (ht2 : t < (target_texts.getD i []).length) :
    ((decoder_target_data tok maxLen target_texts).getD i mzero) (t - 1) k =
      ((decoder_input_data tok maxLen target_texts).getD i mzero) t k ∧
    ((decoder_target_data tok maxLen target_texts).getD i mzero) (t - 1) k =
      (if k = tok ((target_texts.getD i []).getD t (Char.ofNat 32)) then 1
       else 0) := by
  have hmapT : (decoder_target_data tok maxLen target_texts).getD i mzero =
      decoder_target_sample tok maxLen (target_texts.getD i []) := by
    rw [decoder_target_data, getD_map_of_lt _ _ i mzero [] hi]
  have hmapI : (decoder_input_data tok maxLen target_texts).getD i mzero =
      decoder_input_sample tok maxLen (target_texts.getD i []) := by
    rw [decoder_input_data, getD_map_of_lt _ _ i mzero [] hi]
  have htt : (t - 1) + 1 < (target_texts.getD i []).length := by omega
  have hts : (t - 1) + 1 = t := by omega
  have hT : ((decoder_target_data tok maxLen target_texts).getD i mzero) (t - 1) k =
      (if k = tok ((target_texts.getD i []).getD t (Char.ofNat 32)) then 1
       else 0) := by
    rw [hmapT, decoder_target_sample_value tok maxLen _ (t - 1) k htt, hts]
  refine ⟨?_, hT⟩
  rw [hT, hmapI, decoder_input_sample, ← encoder_input_sample,
    input_sample_value_lt tok maxLen _ t k ht2]

theorem teacher_forcing_shift_witness :
    (0 < ([[Char.ofNat 9, Char.ofNat 104, Char.ofNat 10]] :
        List (List Char)).length ∧ 1 ≤ 1 ∧
      1 < (([[Char.ofNat 9, Char.ofNat 104, Char.ofNat 10]] :
        List (List Char)).getD 0 []).length) ∧
    (((decoder_target_data Char.toNat 3
        [[Char.ofNat 9, Char.ofNat 104, Char.ofNat 10]]).getD 0 mzero) (1 - 1) 104 =
      ((decoder_input_data Char.toNat 3
        [[Char.ofNat 9, Char.ofNat 104, Char.ofNat 10]]).getD 0 mzero) 1 104 ∧
    ((decoder_target_data Char.toNat 3
        [[Char.ofNat 9, Char.ofNat 104, Char.ofNat 10]]).getD 0 mzero) (1 - 1) 104 =
      (if 104 = Char.toNat ((([[Char.ofNat 9, Char.ofNat 104, Char.ofNat 10]] :
          List (List Char)).getD 0 []).getD 1 (Char.ofNat 32)) then 1 else 0)) :=
  ⟨⟨by decide, by decide, by decide⟩,
    teacher_forcing_shift Char.toNat 3 [[Char.ofNat 9, Char.ofNat 104, Char.ofNat 10]]
      0 1 104 (by decide) (by decide) (by decide)⟩

/-- C9: one-hot invariant of the vectorized data.  For a non-empty text
whose characters (and the padding space) belong to the vocabulary, every
row `t < maxLen` of the sample's `encoder_input_data` slice — and likewise
of `decoder_input_data` — is exactly the one-hot row of a single in-range
token index: the text's character index at `t` inside the text, and the
space-padding index at or beyond the text's length. -/
theorem one_hot_row_invariant (vocab : List Char) (maxLen : Nat) (text : List Char)
    (t k : Nat) (hne : text ≠ []) (hsp : Char.ofNat 32 ∈ vocab)
    (hchars : ∀ c ∈ text, c ∈ vocab) (ht : t < maxLen) :
    vocab.indexOf (if t < text.length then text.getD t (Char.ofNat 32)
        else Char.ofNat 32) < vocab.length ∧
    encoder_input_sample (fun c => vocab.indexOf c) maxLen text t k =
      (if k = vocab.indexOf (if t < text.length then text.getD t (Char.ofNat 32)
          else Char.ofNat 32) then 1 else 0) ∧
    decoder_input_sample (fun c => vocab.indexOf c) maxLen text t k =
      (if k = vocab.indexOf (if t < text.length then text.getD t (Char.ofNat 32)
          else Char.ofNat 32) then 1 else 0) := by
  refine ⟨?_, ?_, ?_⟩
  · apply List.indexOf_lt_length.mpr
    split
    next hin =>
      apply hchars
      rw [List.getD_eq_getElem _ _ hin]
      exact List.getElem_mem hin
    next => exact hsp
  · exact encoder_input_sample_value (fun c => vocab.indexOf c) maxLen text t k hne ht
  · exact decoder_input_sample_value (fun c => vocab.indexOf c) maxLen text t k hne ht

theorem one_hot_row_invariant_witness :
    (([Char.ofNat 97] : List Char) ≠ [] ∧
      Char.ofNat 32 ∈ [Char.ofNat 32, Char.ofNat 97] ∧
      (∀ c ∈ ([Char.ofNat 97] : List Char), c ∈ [Char.ofNat 32, Char.ofNat 97]) ∧
      1 < 2) ∧
    ([Char.ofNat 32, Char.ofNat 97].indexOf
        (if 1 < ([Char.ofNat 97] : List Char).length
         then ([Char.ofNat 97] : List Char).getD 1 (Char.ofNat 32)
         else Char.ofNat 32) < ([Char.ofNat 32, Char.ofNat 97] : List Char).length ∧
    encoder_input_sample (fun c => [Char.ofNat 32, Char.ofNat 97].indexOf c) 2
        [Char.ofNat 97] 1 0 =
      (if 0 = [Char.ofNat 32, Char.ofNat 97].indexOf
          (if 1 < ([Char.ofNat 97] : List Char).length
           then ([Char.ofNat 97] : List Char).getD 1 (Char.ofNat 32)
           else Char.ofNat 32) then 1 else 0) ∧
    decoder_input_sample (fun c => [Char.ofNat 32, Char.ofNat 97].indexOf c) 2
        [Char.ofNat 97] 1 0 =
      (if 0 = [Char.ofNat 32, Char.ofNat 97].indexOf
          (if 1 < ([Char.ofNat 97] : List Char).length
           then ([Char.ofNat 97] : List Char).getD 1 (Char.ofNat 32)
           else Char.ofNat 32) then 1 else 0)) :=
  ⟨⟨by decide, by decide, by decide, by decide⟩,
    one_hot_row_invariant [Char.ofNat 32, Char.ofNat 97] 2 [Char.ofNat 97] 1 0
      (by decide) (by decide) (by decide) (by decide)⟩

/-- C10: the reverse lookup tables invert the token indices.  For every
character in the sorted target vocabulary,
`reverse_target_char_index[target_token_index[c]] = c`; for every valid
index `k`, `target_token_index[reverse_target_char_index[k]] = k`; and the
same round trips hold for the input-side tables.  (The vocabularies are
sorted lists of a character set, hence duplicate-free.) -/
theorem token_index_round_trip (input_texts target_texts : List (List Char))
    (c d : Char) (j k : Nat)
    (hc : c ∈ target_characters target_texts)
    (hj : j < (target_characters target_texts).length)
    (hd : d ∈ input_characters input_texts)
    (hk : k < (input_characters input_texts).length) :
    reverse_target_char_index target_texts (target_token_index target_texts c) = c ∧
    target_token_index target_texts (reverse_target_char_index target_texts j) = j ∧
    reverse_input_char_index input_texts (input_token_index input_texts d) = d ∧
    input_token_index input_texts (reverse_input_char_index input_texts k) = k :=
  ⟨getD_indexOf_of_mem hc,
    indexOf_getD_of_nodup (sorted_characters_nodup target_texts) hj,
    getD_indexOf_of_mem hd,
    indexOf_getD_of_nodup (sorted_characters_nodup input_texts) hk⟩

theorem token_index_round_trip_witness :
    (Char.ofNat 97 ∈ target_characters [[Char.ofNat 97, Char.ofNat 98]] ∧
      0 < (target_characters [[Char.ofNat 97, Char.ofNat 98]]).length ∧
      Char.ofNat 98 ∈ input_characters [[Char.ofNat 97, Char.ofNat 98]] ∧
      1 < (input_characters [[Char.ofNat 97, Char.ofNat 98]]).length) ∧
    (reverse_target_char_index [[Char.ofNat 97, Char.ofNat 98]]
        (target_token_index [[Char.ofNat 97, Char.ofNat 98]] (Char.ofNat 97)) =
        Char.ofNat 97 ∧
      target_token_index [[Char.ofNat 97, Char.ofNat 98]]
        (reverse_target_char_index [[Char.ofNat 97, Char.ofNat 98]] 0) = 0 ∧
      reverse_input_char_index [[Char.ofNat 97, Char.ofNat 98]]
        (input_token_index [[Char.ofNat 97, Char.ofNat 98]] (Char.ofNat 98)) =
        Char.ofNat 98 ∧
      input_token_index [[Char.ofNat 97, Char.ofNat 98]]
        (reverse_input_char_index [[Char.ofNat 97, Char.ofNat 98]] 1) = 1) :=
  ⟨⟨by
      rw [target_characters, sorted_characters, List.mem_mergeSort]
      decide,
    by
      rw [target_characters, sorted_characters, List.length_mergeSort]
      decide,
    by
      rw [input_characters, sorted_characters, List.mem_mergeSort]
      decide,
    by
      rw [input_characters, sorted_characters, List.length_mergeSort]
      decide⟩,
    token_index_round_trip [[Char.ofNat 97, Char.ofNat 98]]
      [[Char.ofNat 97, Char.ofNat 98]] (Char.ofNat 97) (Char.ofNat 98) 0 1
      (by rw [target_characters, sorted_characters, List.mem_mergeSort]; decide)
      (by rw [target_characters, sorted_characters, List.length_mergeSort]; decide)
      (by rw [input_characters, sorted_characters, List.mem_mergeSort]; decide)
      (by rw [input_characters, sorted_characters, List.length_mergeSort]; decide)⟩

/-- C6: the MLP training loop is invoked with
`EarlyStopping(patience=7)` and `epochs=50`: it never runs more than 50
epochs, and once the monitored validation metric has failed to improve on
its running best for 7 consecutive epochs (epochs `e+1 .. e+7` all at or
above the best value through epoch `e`), optimization halts by epoch
`e + 8`. -/
theorem early_stopping_halts (metric : Nat → ℚ) (e : Nat)
    (hw : ∀ j, e < j → j ≤ e + 7 → best_up_to metric e ≤ metric j) :
    es_epochs_run metric 7 50 ≤ 50 ∧ es_epochs_run metric 7 50 ≤ e + 8 := by
  constructor
  · have := es_aux_le metric 7 50 0 0 none
    simpa [es_epochs_run] using this
  · show es_aux metric 7 (49 + 1) 0 0 none ≤ e + 8
    rw [es_aux, if_neg (by norm_num)]
    have hb : some (metric 0) = some (best_up_to metric (1 - 1)) := rfl
    rw [hb]
    have := es_aux_window metric 7 (by norm_num) e hw 49 1 0 (by norm_num)
      (by omega) (by norm_num)
    simp only [Nat.zero_add]
    omega

theorem early_stopping_halts_witness :
    (∀ j, 0 < j → j ≤ 0 + 7 →
      best_up_to (fun _ => (0 : ℚ)) 0 ≤ (fun _ => (0 : ℚ)) j) ∧
    (es_epochs_run (fun _ => (0 : ℚ)) 7 50 ≤ 50 ∧
      es_epochs_run (fun _ => (0 : ℚ)) 7 50 ≤ 0 + 8) :=
  ⟨fun _ _ _ => le_rfl,
    early_stopping_halts (fun _ => (0 : ℚ)) 0 (fun _ _ _ => le_rfl)⟩

/-! ## C7: the MLP preprocessing pipeline -/

/-- A well-formed CIFAR-10 image: `32 × 32 × 3` nested lists. -/
def img32 (img : List (List (List ℚ))) : Prop :=
  img.length = 32 ∧ ∀ row ∈ img, row.length = 32 ∧ ∀ px ∈ row, px.length = 3

instance (img : List (List (List ℚ))) : Decidable (img32 img) :=
  inferInstanceAs (Decidable (img.length = 32 ∧
    ∀ row ∈ img, row.length = 32 ∧ ∀ px ∈ row, px.length = 3))

theorem flattenImage_rows_length (img : List (List (List ℚ))) (h : img32 img) :
    ∀ r ∈ img.map List.flatten, r.length = 96 := by
  intro r hr
  obtain ⟨row, hrow, rfl⟩ := List.mem_map.mp hr
  obtain ⟨h32, hpx⟩ := h.2 row hrow
  rw [flatten_length_uniform 3 row hpx, h32]

theorem flattenImage_length (img : List (List (List ℚ))) (h : img32 img) :
    (flattenImage img).length = 3072 := by
  rw [flattenImage, flatten_length_uniform 96 _ (flattenImage_rows_length img h),
    List.length_map, h.1]

theorem flattenImage_getD (img : List (List (List ℚ))) (h : img32 img)
    (r c ch : Nat) (hr : r < 32) (hc : c < 32) (hch : ch < 3) :
    (flattenImage img).getD (r * 96 + (c * 3 + ch)) 0 =
      ((img.getD r []).getD c []).getD ch 0 := by
  have hrl : r < img.length := by rw [h.1]; exact hr
  rw [flattenImage, flatten_getD_uniform 96 _ (flattenImage_rows_length img h) r
    (c * 3 + ch) (by simpa using hrl) (by omega),
    getD_map_of_lt List.flatten img r [] [] hrl]
  have hmem : img.getD r [] ∈ img := by
    rw [List.getD_eq_getElem _ _ hrl]
    exact List.getElem_mem hrl
  obtain ⟨h32, hpx⟩ := h.2 _ hmem
  rw [flatten_getD_uniform 3 _ hpx c ch (by rw [h32]; exact hc) hch]

theorem reshape_dataset (X : List (List (List (List ℚ)))) (n : Nat)
    (hn : X.length = n) (hd : ∀ img ∈ X, img32 img) :
    reshape_X n X = some (X.map flattenImage) := by
  have hrows : ∀ r ∈ X.map flattenImage, r.length = 3072 := by
    intro r hr
    obtain ⟨img, himg, rfl⟩ := List.mem_map.mp hr
    exact flattenImage_length img (hd img himg)
  rw [reshape_X, npReshape, if_pos ?cond]
  case cond =>
    refine ⟨?_, by norm_num⟩
    rw [X_flat, flatten_length_uniform 3072 _ hrows, List.length_map, hn]
  have h2 : (3072 : Nat) - 1 + 1 = 3072 := by norm_num
  rw [show X_flat X = (X.map flattenImage).flatten from rfl]
  congr 1
  have := chunksOfSucc_flatten 3071 (X.map flattenImage)
    (fun r hr => by rw [hrows r hr])
  exact this

theorem gauss_normalize_getD (s : ℚ) (rows : List (List ℚ)) (i idx : Nat)
    (hi : i < rows.length) (hidx : idx < (rows.getD i []).length) :
    ((gauss_normalize s rows).getD i []).getD idx 0 =
      ((rows.getD i []).getD idx 0 - listMean rows.flatten) / s := by
  rw [gauss_normalize,
    getD_map_of_lt (fun row => row.map
      (fun x => (x - listMean rows.flatten) / s)) rows i [] [] hi,
    getD_map_of_lt _ _ idx 0 0 hidx]

/-- C7: the MLP preprocessing pipeline.  `X_train.reshape(50000, 3072)`
and `X_test.reshape(10000, 3072)` succeed and give one row of 3072
elements per image, preserving every pixel value at row-major position
`r * 96 + c * 3 + ch`; the Gaussian normalization then maps each training
element `x` to `(x - mean) / std` with the mean and the standard deviation
`sTr` (the non-negative square root of the variance) computed over the
entire training array, and each test element to the same formula with
`mean`/`sTe` computed over the entire test array. -/
theorem mlp_preprocessing_correct
    (X_train X_test : List (List (List (List ℚ)))) (sTr sTe : ℚ)
    (hTr : X_train.length = 50000) (hTe : X_test.length = 10000)
    (hdTr : ∀ img ∈ X_train, img32 img) (hdTe : ∀ img ∈ X_test, img32 img)
    (_hsTr : 0 ≤ sTr ∧ sTr ^ 2 = listVariance (X_flat X_train))
    (_hsTe : 0 ≤ sTe ∧ sTe ^ 2 = listVariance (X_flat X_test))
    (i i2 r c ch : Nat) (hi : i < 50000) (hi2 : i2 < 10000)
    (hr : r < 32) (hc : c < 32) (hch : ch < 3) :
    reshape_X 50000 X_train = some (X_train.map flattenImage) ∧
    reshape_X 10000 X_test = some (X_test.map flattenImage) ∧
    (∀ row ∈ X_train.map flattenImage, row.length = 3072) ∧
    ((X_train.map flattenImage).getD i []).getD (r * 96 + (c * 3 + ch)) 0 =
      (((X_train.getD i []).getD r []).getD c []).getD ch 0 ∧
    ((gauss_normalize sTr (X_train.map flattenImage)).getD i []).getD
        (r * 96 + (c * 3 + ch)) 0 =
      ((((X_train.getD i []).getD r []).getD c []).getD ch 0 -
        listMean (X_flat X_train)) / sTr ∧
    ((gauss_normalize sTe (X_test.map flattenImage)).getD i2 []).getD
        (r * 96 + (c * 3 + ch)) 0 =
      ((((X_test.getD i2 []).getD r []).getD c []).getD ch 0 -
        listMean (X_flat X_test)) / sTe := by
  have hiX : i < X_train.length := by omega
  have hi2X : i2 < X_test.length := by omega
  have hmemTr : X_train.getD i [] ∈ X_train := by
    rw [List.getD_eq_getElem _ _ hiX]
    exact List.getElem_mem hiX
  have hmemTe : X_test.getD i2 [] ∈ X_test := by
    rw [List.getD_eq_getElem _ _ hi2X]
    exact List.getElem_mem hi2X
  have hpixTr : ((X_train.map flattenImage).getD i []).getD
      (r * 96 + (c * 3 + ch)) 0 =
      (((X_train.getD i []).getD r []).getD c []).getD ch 0 := by
    rw [getD_map_of_lt flattenImage X_train i [] [] hiX]
    exact flattenImage_getD _ (hdTr _ hmemTr) r c ch hr hc hch
  have hpixTe : ((X_test.map flattenImage).getD i2 []).getD
      (r * 96 + (c * 3 + ch)) 0 =
      (((X_test.getD i2 []).getD r []).getD c []).getD ch 0 := by
    rw [getD_map_of_lt flattenImage X_test i2 [] [] hi2X]
    exact flattenImage_getD _ (hdTe _ hmemTe) r c ch hr hc hch
  have hflatTr : (X_train.map flattenImage).flatten = X_flat X_train := rfl
  have hflatTe : (X_test.map flattenImage).flatten = X_flat X_test := rfl
  refine ⟨reshape_dataset X_train 50000 hTr hdTr,
    reshape_dataset X_test 10000 hTe hdTe,
    fun row hrow => ?_, hpixTr, ?_, ?_⟩
  · obtain ⟨img, himg, rfl⟩ := List.mem_map.mp hrow
    exact flattenImage_length img (hdTr img himg)
  · rw [gauss_normalize_getD sTr (X_train.map flattenImage) i
      (r * 96 + (c * 3 + ch)) (by rw [List.length_map]; exact hiX) ?hb,
      hflatTr, hpixTr]
    case hb =>
      rw [getD_map_of_lt flattenImage X_train i [] [] hiX,
        flattenImage_length _ (hdTr _ hmemTr)]
      omega
  · rw [gauss_normalize_getD sTe (X_test.map flattenImage) i2
      (r * 96 + (c * 3 + ch)) (by rw [List.length_map]; exact hi2X) ?hb2,
      hflatTe, hpixTe]
    case hb2 =>
      rw [getD_map_of_lt flattenImage X_test i2 [] [] hi2X,
        flattenImage_length _ (hdTe _ hmemTe)]
      omega

/-- The all-zero CIFAR-10 image, used to instantiate the preprocessing
theorem on a concrete dataset. -/
def zeroImage : List (List (List ℚ)) :=
  List.replicate 32 (List.replicate 32 (List.replicate 3 0))

theorem X_flat_replicate_zero (N : Nat) :
    ∀ x ∈ X_flat (List.replicate N zeroImage), x = 0 := by
  intro x hx
  rw [X_flat, List.map_replicate] at hx
  obtain ⟨l, hl, hxl⟩ := List.mem_flatten.mp hx
  rw [List.eq_of_mem_replicate hl, flattenImage, zeroImage,
    List.map_replicate] at hxl
  obtain ⟨l2, hl2, hxl2⟩ := List.mem_flatten.mp hxl
  rw [List.eq_of_mem_replicate hl2] at hxl2
  obtain ⟨l3, hl3, hxl3⟩ := List.mem_flatten.mp hxl2
  rw [List.eq_of_mem_replicate hl3] at hxl3
  exact List.eq_of_mem_replicate hxl3

theorem mlp_preprocessing_correct_witness :
    ((List.replicate 50000 zeroImage).length = 50000 ∧
      (List.replicate 10000 zeroImage).length = 10000 ∧
      (∀ img ∈ List.replicate 50000 zeroImage, img32 img) ∧
      (∀ img ∈ List.replicate 10000 zeroImage, img32 img) ∧
      ((0 : ℚ) ≤ 0 ∧ (0 : ℚ) ^ 2 =
        listVariance (X_flat (List.replicate 50000 zeroImage))) ∧
      ((0 : ℚ) ≤ 0 ∧ (0 : ℚ) ^ 2 =
        listVariance (X_flat (List.replicate 10000 zeroImage))) ∧
      0 < 50000 ∧ 0 < 10000 ∧ 0 < 32 ∧ 0 < 3) ∧
    (reshape_X 50000 (List.replicate 50000 zeroImage) =
      some ((List.replicate 50000 zeroImage).map flattenImage) ∧
    reshape_X 10000 (List.replicate 10000 zeroImage) =
      some ((List.replicate 10000 zeroImage).map flattenImage) ∧
    (∀ row ∈ (List.replicate 50000 zeroImage).map flattenImage,
      row.length = 3072) ∧
    (((List.replicate 50000 zeroImage).map flattenImage).getD 0 []).getD
        (0 * 96 + (0 * 3 + 0)) 0 =
      ((((List.replicate 50000 zeroImage).getD 0 []).getD 0 []).getD 0 []).getD
        0 0 ∧
    ((gauss_normalize 0
        ((List.replicate 50000 zeroImage).map flattenImage)).getD 0 []).getD
        (0 * 96 + (0 * 3 + 0)) 0 =
      (((((List.replicate 50000 zeroImage).getD 0 []).getD 0 []).getD 0 []).getD
          0 0 - listMean (X_flat (List.replicate 50000 zeroImage))) / 0 ∧
    ((gauss_normalize 0
        ((List.replicate 10000 zeroImage).map flattenImage)).getD 0 []).getD
        (0 * 96 + (0 * 3 + 0)) 0 =
      (((((List.replicate 10000 zeroImage).getD 0 []).getD 0 []).getD 0 []).getD
          0 0 - listMean (X_flat (List.replicate 10000 zeroImage))) / 0) :=
  ⟨⟨List.length_replicate _ _, List.length_replicate _ _,
    fun img h => by rw [List.eq_of_mem_replicate h]; decide,
    fun img h => by rw [List.eq_of_mem_replicate h]; decide,
    ⟨le_rfl, by
      rw [listVariance_of_all_zero _ (X_flat_replicate_zero 50000)]
      norm_num⟩,
    ⟨le_rfl, by
      rw [listVariance_of_all_zero _ (X_flat_replicate_zero 10000)]
      norm_num⟩,
    by norm_num, by norm_num, by norm_num, by norm_num⟩,
    mlp_preprocessing_correct (List.replicate 50000 zeroImage)
      (List.replicate 10000 zeroImage) 0 0 (List.length_replicate _ _)
      (List.length_replicate _ _)
      (fun img h => by rw [List.eq_of_mem_replicate h]; decide)
      (fun img h => by rw [List.eq_of_mem_replicate h]; decide)
      ⟨le_rfl, by
        rw [listVariance_of_all_zero _ (X_flat_replicate_zero 50000)]
        norm_num⟩
      ⟨le_rfl, by
        rw [listVariance_of_all_zero _ (X_flat_replicate_zero 10000)]
        norm_num⟩
      0 0 0 0 0 (by norm_num) (by norm_num) (by norm_num) (by norm_num)
      (by norm_num)⟩

end SML
